import Mathlib

/-!
Shallow embedding of the reconciliation core of `src/main.py`: the
classification of instruction names between the YAML description corpus and
the TOML format corpus (`compare_yaml_and_toml_instructions`, lines 77-140)
and the description-copying merge (`add_descriptions_to_toml`, lines 143-188).

Parsed YAML/TOML data is modelled by the inductive `Val` (strings, integers,
booleans, null, lists, string-keyed mappings).  Python dictionaries are
modelled as ordered association lists; `lookupKey`/`setKey` mirror `d[k]`
membership/lookup and `d[k] = v` assignment for the unique-key dictionaries
that the YAML/TOML parsers produce.  File-system effects (directory walking,
file writes) are outside the embedding: the merge is modelled as a pure
transformation of the toml corpus returning the updated documents and the
number of modified documents, with every file write assumed to succeed.
Inputs on which the Python source would raise a `TypeError`/`AttributeError`
(for example a non-mapping value stored under the `formats` key) are outside
the source's defined behaviour; the corresponding theorems carry decidable
well-formedness hypotheses (`docShapeWF`, `docMergeWF`) that restrict to the
shapes on which the source runs without raising.
-/

namespace TomlGen

/-- A parsed YAML/TOML value: scalar, list, or string-keyed mapping.
Mappings are ordered association lists, matching Python insertion-ordered
dictionaries. -/
inductive Val where
  | str : String → Val
  | int : Int → Val
  | bool : Bool → Val
  | null : Val
  | list : List Val → Val
  | dict : List (String × Val) → Val
deriving Repr

/-- A name-to-record mapping (the description corpus, `yaml_files`). -/
abbrev Dict := List (String × Val)

/-- A format document: the top-level mapping produced by `tomli.load`. -/
abbrev Doc := List (String × Val)

/-- Python `d[k]` / `d.get(k)` on a dictionary: value at the first
occurrence of the key. -/
def lookupKey : List (String × Val) → String → Option Val
  | [], _ => none
  | (k, v) :: rest, key => if k = key then some v else lookupKey rest key

/-- Python `k in d` on a dictionary. -/
def hasKey (m : List (String × Val)) (key : String) : Bool :=
  (lookupKey m key).isSome

/-- Python `d[k] = v` on a dictionary: replace the value at the key if
present (keeping its position), otherwise append the pair. -/
def setKey : List (String × Val) → String → Val → List (String × Val)
  | [], key, v => [(key, v)]
  | (k, w) :: rest, key, v =>
      if k = key then (k, v) :: rest else (k, w) :: setKey rest key v

/-- Python `s.strip(c)` for a quote character (`inst_name.strip(q)` at lines
102 and 163, where q is the double-quote character): remove every leading and
every trailing quote character, each end independently. -/
def stripQuote (s : String) : String :=
  ⟨((s.data.dropWhile (fun c => c = '"')).reverse.dropWhile
      (fun c => c = '"')).reverse⟩

/-- Python truthiness of a parsed value (`if description:` at line 172). -/
def truthy : Val → Bool
  | Val.str s => !s.isEmpty
  | Val.int n => n != 0
  | Val.bool b => b
  | Val.null => false
  | Val.list l => !l.isEmpty
  | Val.dict m => !m.isEmpty

/-- Whether a value is a mapping (`isinstance(yaml_data, dict)`, line 169). -/
def Val.isDict : Val → Bool
  | Val.dict _ => true
  | _ => false

/-- Whether a value is a string. -/
def Val.isStr : Val → Bool
  | Val.str _ => true
  | _ => false

/-- The mapping carried by a value, when it is a mapping. -/
def Val.getDict : Val → Option (List (String × Val))
  | Val.dict m => some m
  | _ => none

/-- The list carried by a value, when it is a list. -/
def Val.getList : Val → Option (List Val)
  | Val.list l => some l
  | _ => none

/-- The string carried by a value, when it is a string. -/
def Val.getStr : Val → Option String
  | Val.str s => some s
  | _ => none

/-- A looked-up value viewed as a mapping: `some` exactly when the key is
present and its value is a mapping. -/
def asDict (v : Option Val) : Option (List (String × Val)) :=
  v.bind Val.getDict

/-- A looked-up value viewed as a list. -/
def asList (v : Option Val) : Option (List Val) :=
  v.bind Val.getList

/-- The section names of a document:
`toml_content.get("formats", \x7b\x7d).get("names", [])` (lines 92, 113,
158).  Non-string elements of the list are dropped: a non-string key is never
equal to any of the parser's string dictionary keys, so in the source it
falls through both `in` tests and contributes nothing. -/
def formatNames (doc : Doc) : List String :=
  (((asDict (lookupKey doc "formats")).bind
      (fun fm => asList (lookupKey fm "names"))).getD []).filterMap
    Val.getStr

/-- The raw instruction entry names of one listed section
(lines 93-97: skip the section when its key is absent from the document or
when it has no `instructions` sub-mapping). -/
def sectionInstNames (doc : Doc) (fk : String) : List String :=
  match asDict (lookupKey doc fk) with
  | some sec =>
      match asDict (lookupKey sec "instructions") with
      | some insts => insts.map Prod.fst
      | none => []
  | none => []

/-- The `toml_instructions` list collected for one document (lines 91-97). -/
def tomlInstructions (doc : Doc) : List String :=
  (formatNames doc).flatMap (sectionInstNames doc)

/-- The classification loop over one document's instruction names
(lines 101-109): strip quotes, then append the `(document, cleanName)` pair
to `matches` when the clean name is a key of `yaml_files`, else to
`mismatches`. -/
def classifyInsts (yaml_files : Dict) (nm : String) :
    List String → List (String × String) × List (String × String)
  | [] => ([], [])
  | i :: rest =>
      let r := classifyInsts yaml_files nm rest
      let c := stripQuote i
      if hasKey yaml_files c then ((nm, c) :: r.1, r.2) else (r.1, (nm, c) :: r.2)

/-- The in-memory state of the script: the two loaded corpora.  Both are
passed by reference into the comparison and merge functions. -/
structure ProgState where
  yaml_files : Dict
  toml_files : List (String × Doc)
deriving Repr

/-- The outer loop of `compare_yaml_and_toml_instructions` (lines 88-109),
with the program state threaded through each iteration.  The loop body only
reads `yaml_files` and the current document and appends to the fresh local
lists `matches`/`mismatches`; no statement stores into either input mapping,
so each iteration passes the state on unchanged. -/
def compareLoop : ProgState → List (String × Doc) →
    (List (String × String) × List (String × String)) × ProgState
  | s, [] => (([], []), s)
  | s, (nm, doc) :: rest =>
      let pr := classifyInsts s.yaml_files nm (tomlInstructions doc)
      let r := compareLoop s rest
      ((pr.1 ++ r.1.1, pr.2 ++ r.1.2), r.2)

/-- The second pass of the comparison (lines 111-116): the union over every
document of the stripped instruction names.  The source collects them into a
`set` that is only ever used for membership tests; a list with `contains`
is membership-equivalent. -/
def allTomlInstructionNames (toml_files : List (String × Doc)) : List String :=
  (toml_files.map (fun p => (tomlInstructions p.2).map stripQuote)).flatten

/-- `compare_yaml_and_toml_instructions` (lines 77-140) as a state
transformer: returns `(matches, mismatches, yaml_only)` together with the
final program state.  `yaml_only` (lines 118-121) keeps every key of
`yaml_files`, in mapping order, that is not among the stripped toml
instruction names. -/
def compareRun (s : ProgState) :
    (List (String × String) × List (String × String) × List String) ×
      ProgState :=
  let r := compareLoop s s.toml_files
  let all := allTomlInstructionNames r.2.toml_files
  let yaml_only := (r.2.yaml_files.map Prod.fst).filter
    (fun q => !(all.contains q))
  ((r.1.1, r.1.2, yaml_only), r.2)

/-- The pure view of `compare_yaml_and_toml_instructions`: the returned
triple `(matches, mismatches, yaml_only)`. -/
def compare_yaml_and_toml_instructions (yaml_files : Dict)
    (toml_files : List (String × Doc)) :
    List (String × String) × List (String × String) × List String :=
  (compareRun ⟨yaml_files, toml_files⟩).1

/-- The description value the merge would copy for a cleaned instruction
name (lines 165-172): `None` when the name is not a key of `yaml_files` or
its record is not a mapping; otherwise the record's `description` attribute
with the default `"No description available"` when absent; the copy happens
only when the value is truthy. -/
def descriptionFor (yaml_files : Dict) (clean : String) : Option Val :=
  match asDict (lookupKey yaml_files clean) with
  | some r =>
      let d := match lookupKey r "description" with
               | some v => v
               | none => Val.str "No description available"
      if truthy d then some d else none
  | none => none

/-- The merge loop body for one instruction entry (lines 162-175): when a
truthy description exists for the cleaned name, set the entry's
`description` key to it (the entry is a mapping whenever the source reaches
the assignment without raising) and report the write; otherwise leave the
entry unchanged. -/
def mergeEntry (yaml_files : Dict) (i : String) (v : Val) : Val × Bool :=
  match descriptionFor yaml_files (stripQuote i) with
  | some dv =>
      match v.getDict with
      | some e => (Val.dict (setKey e "description" dv), true)
      | none => (v, false)
  | none => (v, false)

/-- The merge loop over one section's `instructions` mapping
(lines 162-175), returning the updated mapping and whether any entry was
written. -/
def mergeInsts (yaml_files : Dict) :
    List (String × Val) → List (String × Val) × Bool
  | [] => ([], false)
  | (i, v) :: rest =>
      let r := mergeEntry yaml_files i v
      let rr := mergeInsts yaml_files rest
      ((i, r.1) :: rr.1, r.2 || rr.2)

/-- The merge of one listed section of a document (lines 158-175): skip when
the section key is absent or the section has no `instructions` mapping,
otherwise merge the instructions in place. -/
def mergeSection (yaml_files : Dict) (d : Doc) (fk : String) : Doc × Bool :=
  match asDict (lookupKey d fk) with
  | some sec =>
      match asDict (lookupKey sec "instructions") with
      | some insts =>
          let r := mergeInsts yaml_files insts
          (setKey d fk (Val.dict (setKey sec "instructions" (Val.dict r.1))),
           r.2)
      | none => (d, false)
  | none => (d, false)

/-- The fold of `mergeSection` over a list of section names, accumulating
the document and the `modified` flag (lines 156-175). -/
def mergeFold (yaml_files : Dict) : List String → Doc × Bool → Doc × Bool
  | [], s => s
  | fk :: rest, s =>
      mergeFold yaml_files rest
        ((mergeSection yaml_files s.1 fk).1,
         s.2 || (mergeSection yaml_files s.1 fk).2)

/-- The merge of one document (lines 154-175): fold over the section names
listed in `formats.names` (the names list is read once, from the document as
loaded), starting from `modified = False`. -/
def mergeDoc (yaml_files : Dict) (d : Doc) : Doc × Bool :=
  mergeFold yaml_files (formatNames d) (d, false)

/-- `add_descriptions_to_toml` (lines 143-188) as a pure transformation:
the toml corpus after the in-place merge, together with `modified_count`.
Only documents whose `modified` flag is set are written (and counted); every
file write is assumed to succeed. -/
def add_descriptions_to_toml (yaml_files : Dict)
    (toml_files : List (String × Doc)) : List (String × Doc) × Nat :=
  (toml_files.map (fun p => (p.1, (mergeDoc yaml_files p.2).1)),
   (toml_files.filter (fun p => (mergeDoc yaml_files p.2).2)).length)

/-- The documents written to the `target` directory (lines 177-183): the
merged content of exactly the documents marked modified, in corpus order. -/
def mergeOutput (yaml_files : Dict) (toml_files : List (String × Doc)) :
    List (String × Doc) :=
  (toml_files.filter (fun p => (mergeDoc yaml_files p.2).2)).map
    (fun p => (p.1, (mergeDoc yaml_files p.2).1))

/-- Shape well-formedness of one format document: the shapes on which the
comparison runs without raising.  The `formats` value, when present, is a
mapping; its `names` value, when present, is a list of strings; every
listed-and-present section is a mapping whose `instructions` value, when
present, is a mapping. -/
def docShapeWF (doc : Doc) : Bool :=
  (match lookupKey doc "formats" with
   | some (Val.dict fm) =>
       match lookupKey fm "names" with
       | some (Val.list vs) => vs.all Val.isStr
       | some _ => false
       | none => true
   | some _ => false
   | none => true) &&
  (formatNames doc).all (fun fk =>
    match lookupKey doc fk with
    | some (Val.dict sec) =>
        (match lookupKey sec "instructions" with
         | some (Val.dict _) => true
         | some _ => false
         | none => true)
    | some _ => false
    | none => true)

/-- Merge well-formedness of one format document: shape well-formedness
plus every instruction entry value being a mapping, so that the assignment
`instructions[inst_name]["description"] = description` cannot raise. -/
def docMergeWF (doc : Doc) : Bool :=
  docShapeWF doc &&
  (formatNames doc).all (fun fk =>
    match lookupKey doc fk with
    | some (Val.dict sec) =>
        (match lookupKey sec "instructions" with
         | some (Val.dict insts) => insts.all (fun e => e.2.isDict)
         | _ => true)
    | _ => true)

/-- Shape well-formedness of the whole format corpus. -/
def corpusShapeWF (toml_files : List (String × Doc)) : Bool :=
  toml_files.all (fun p => docShapeWF p.2)

/-- Merge well-formedness of the whole format corpus. -/
def corpusMergeWF (toml_files : List (String × Doc)) : Bool :=
  toml_files.all (fun p => docMergeWF p.2)

/-- All `(documentName, cleanedInstructionName)` pairs, in traversal order:
the full traversal that the classification loop partitions. -/
def allInstPairs (toml_files : List (String × Doc)) :
    List (String × String) :=
  (toml_files.map (fun p =>
    (tomlInstructions p.2).map (fun i => (p.1, stripQuote i)))).flatten

/-- The top-level keys of a document. -/
def docKeys (d : Doc) : List String := d.map Prod.fst

/-- The keys of a top-level section of a document, when it is a mapping. -/
def sectionKeys (d : Doc) (fk : String) : Option (List String) :=
  (asDict (lookupKey d fk)).map (fun sec => sec.map Prod.fst)

/-- An attribute of a top-level section of a document. -/
def sectionAttr (d : Doc) (fk k : String) : Option Val :=
  (asDict (lookupKey d fk)).bind (fun sec => lookupKey sec k)

/-- The `instructions` mapping of a top-level section of a document. -/
def sectionInsts (d : Doc) (fk : String) : Option (List (String × Val)) :=
  (asDict (lookupKey d fk)).bind
    (fun sec => asDict (lookupKey sec "instructions"))

/-- The entry keys of a section's `instructions` mapping. -/
def entryKeys (d : Doc) (fk : String) : Option (List String) :=
  (sectionInsts d fk).map (fun insts => insts.map Prod.fst)

/-- An attribute of one instruction entry of a section. -/
def entryAttr (d : Doc) (fk i k : String) : Option Val :=
  (sectionInsts d fk).bind (fun insts =>
    (asDict (lookupKey insts i)).bind (fun e => lookupKey e k))

/-- The worked example's description corpus: `add` carries a description,
`sub` is a record with no `description` attribute. -/
def yamlEx : Dict :=
  [("add", Val.dict [("description", Val.str "Add two registers")]),
   ("sub", Val.dict [])]

/-- The worked example's single format document: one listed section `R`
with entries `add` and `mul`. -/
def docEx : Doc :=
  [("formats", Val.dict [("names", Val.list [Val.str "R"])]),
   ("R", Val.dict [("instructions",
      Val.dict [("add", Val.dict []), ("mul", Val.dict [])])])]

/-- The worked example's format corpus. -/
def tomlEx : List (String × Doc) := [("rv32i", docEx)]

/-- A description corpus whose only record is map-shaped but carries no
`description` attribute. -/
def yamlNoDescr : Dict := [("add", Val.dict [])]

/-- A description corpus whose only record carries an empty (falsy)
`description` attribute. -/
def yamlEmptyDescr : Dict := [("add", Val.dict [("description", Val.str "")])]

/-- A description corpus whose only record is not map-shaped. -/
def yamlScalar : Dict := [("add", Val.str "just text")]

/-- A format document whose single listed section is absent from the
document's top level. -/
def docMissingSection : Doc :=
  [("formats", Val.dict [("names", Val.list [Val.str "R"])])]

/-- A format document with no `formats` key at all. -/
def docNoFormats : Doc :=
  [("R", Val.dict [("instructions", Val.dict [("add", Val.dict [])])])]

/-- A format document whose `formats` mapping has no `names` key. -/
def docNoNames : Doc :=
  [("formats", Val.dict []),
   ("R", Val.dict [("instructions", Val.dict [("add", Val.dict [])])])]

/-- A format document whose listed-and-present section has no
`instructions` key. -/
def docNoInsts : Doc :=
  [("formats", Val.dict [("names", Val.list [Val.str "R"])]),
   ("R", Val.dict [("mask", Val.str "0x7f")])]

/-! ### Association-list lemmas -/

theorem lookupKey_setKey_self (m : List (String × Val)) (k : String) (v : Val) :
    lookupKey (setKey m k v) k = some v := by
  induction m with
  | nil => simp [setKey, lookupKey]
  | cons hd tl ih =>
      obtain ⟨a, b⟩ := hd
      by_cases h : a = k
      · simp [setKey, lookupKey, h]
      · simp [setKey, lookupKey, h, ih]

theorem lookupKey_setKey_ne (m : List (String × Val)) (k k' : String) (v : Val)
    (h : k' ≠ k) : lookupKey (setKey m k v) k' = lookupKey m k' := by
  induction m with
  | nil => simp [setKey, lookupKey, Ne.symm h]
  | cons hd tl ih =>
      obtain ⟨a, b⟩ := hd
      by_cases ha : a = k
      · subst ha
        have hne : a ≠ k' := fun hh => h hh.symm
        simp [setKey, lookupKey, hne]
      · by_cases ha' : a = k'
        · simp [setKey, lookupKey, ha, ha', h]
        · simp [setKey, lookupKey, ha, ha', ih]

theorem setKey_of_lookupKey_eq {m : List (String × Val)} {k : String} {v : Val}
    (h : lookupKey m k = some v) : setKey m k v = m := by
  induction m with
  | nil => simp [lookupKey] at h
  | cons hd tl ih =>
      obtain ⟨a, b⟩ := hd
      by_cases ha : a = k
      · subst ha
        simp [lookupKey] at h
        simp [setKey, h]
      · simp [lookupKey, ha] at h
        simp [setKey, ha, ih h]

theorem lookupKey_of_setKey_eq {m : List (String × Val)} {k : String} {v : Val}
    (h : setKey m k v = m) : lookupKey m k = some v := by
  induction m with
  | nil => simp [setKey] at h
  | cons hd tl ih =>
      obtain ⟨a, b⟩ := hd
      by_cases ha : a = k
      · subst ha
        simp [setKey] at h
        simp [lookupKey, h]
      · simp [setKey, ha] at h
        simp [lookupKey, ha, ih h]

theorem setKey_setKey (m : List (String × Val)) (k : String) (v w : Val) :
    setKey (setKey m k v) k w = setKey m k w := by
  induction m with
  | nil => simp [setKey]
  | cons hd tl ih =>
      obtain ⟨a, b⟩ := hd
      by_cases ha : a = k
      · simp [setKey, ha]
      · simp [setKey, ha, ih]

theorem keys_setKey_of_hasKey {m : List (String × Val)} {k : String} (v : Val)
    (h : hasKey m k = true) :
    (setKey m k v).map Prod.fst = m.map Prod.fst := by
  induction m with
  | nil => simp [hasKey, lookupKey] at h
  | cons hd tl ih =>
      obtain ⟨a, b⟩ := hd
      by_cases ha : a = k
      · simp [setKey, ha]
      · simp [hasKey, lookupKey, ha] at h
        simp [setKey, ha, ih h]

theorem hasKey_false_iff {m : List (String × Val)} {k : String} :
    hasKey m k = false ↔ lookupKey m k = none := by
  simp [hasKey, Option.isSome]
  cases lookupKey m k <;> simp

theorem lookupKey_map_entry (f : String → Val → Val)
    (l : List (String × Val)) (k : String) :
    lookupKey (l.map (fun p => (p.1, f p.1 p.2))) k =
      (lookupKey l k).map (f k) := by
  induction l with
  | nil => simp [lookupKey]
  | cons hd tl ih =>
      obtain ⟨a, b⟩ := hd
      by_cases ha : a = k
      · subst ha
        simp [lookupKey]
      · simp [lookupKey, ha, ih]

/-! ### Classification lemmas -/

theorem classifyInsts_append_perm (y : Dict) (nm : String) (l : List String) :
    ((classifyInsts y nm l).1 ++ (classifyInsts y nm l).2).Perm
      (l.map (fun i => (nm, stripQuote i))) := by
  induction l with
  | nil => simp [classifyInsts]
  | cons i rest ih =>
      by_cases h : hasKey y (stripQuote i)
      · simpa [classifyInsts, h] using ih.cons (nm, stripQuote i)
      · simp only [classifyInsts, h, Bool.false_eq_true, if_false, List.map_cons]
        exact List.perm_middle.trans (ih.cons (nm, stripQuote i))

theorem classifyInsts_fst_mem {y : Dict} {nm : String} {l : List String}
    {p : String × String} (hp : p ∈ (classifyInsts y nm l).1) :
    p.1 = nm ∧ hasKey y p.2 = true ∧ p.2 ∈ l.map stripQuote := by
  induction l with
  | nil => simp [classifyInsts] at hp
  | cons i rest ih =>
      by_cases h : hasKey y (stripQuote i)
      · simp only [classifyInsts, h, if_true, List.mem_cons] at hp
        rcases hp with hp | hp
        · subst hp; exact ⟨rfl, h, by simp⟩
        · obtain ⟨h1, h2, h3⟩ := ih hp
          exact ⟨h1, h2, by simp [h3]⟩
      · simp only [classifyInsts, h, Bool.false_eq_true, if_false] at hp
        obtain ⟨h1, h2, h3⟩ := ih hp
        exact ⟨h1, h2, by simp [h3]⟩

theorem classifyInsts_snd_mem {y : Dict} {nm : String} {l : List String}
    {p : String × String} (hp : p ∈ (classifyInsts y nm l).2) :
    p.1 = nm ∧ hasKey y p.2 = false ∧ p.2 ∈ l.map stripQuote := by
  induction l with
  | nil => simp [classifyInsts] at hp
  | cons i rest ih =>
      by_cases h : hasKey y (stripQuote i)
      · simp only [classifyInsts, h, if_true] at hp
        obtain ⟨h1, h2, h3⟩ := ih hp
        exact ⟨h1, h2, by simp [h3]⟩
      · simp only [classifyInsts, h, Bool.false_eq_true, if_false,
          List.mem_cons] at hp
        rcases hp with hp | hp
        · subst hp
          exact ⟨rfl, by simpa using h, by simp⟩
        · obtain ⟨h1, h2, h3⟩ := ih hp
          exact ⟨h1, h2, by simp [h3]⟩

theorem compareLoop_state (s : ProgState) (l : List (String × Doc)) :
    (compareLoop s l).2 = s := by
  induction l with
  | nil => rfl
  | cons hd tl ih => simp [compareLoop, ih]

theorem compareLoop_fst (s : ProgState) (l : List (String × Doc)) :
    (compareLoop s l).1 =
      ((l.map (fun p =>
          (classifyInsts s.yaml_files p.1 (tomlInstructions p.2)).1)).flatten,
       (l.map (fun p =>
          (classifyInsts s.yaml_files p.1 (tomlInstructions p.2)).2)).flatten) := by
  induction l with
  | nil => rfl
  | cons hd tl ih => simp [compareLoop, ih]

theorem compare_eq (y : Dict) (t : List (String × Doc)) :
    compare_yaml_and_toml_instructions y t =
      ((t.map (fun p => (classifyInsts y p.1 (tomlInstructions p.2)).1)).flatten,
       (t.map (fun p => (classifyInsts y p.1 (tomlInstructions p.2)).2)).flatten,
       (y.map Prod.fst).filter
         (fun q => !((allTomlInstructionNames t).contains q))) := by
  have hs := compareLoop_state ⟨y, t⟩ t
  have hf := compareLoop_fst ⟨y, t⟩ t
  simp [compare_yaml_and_toml_instructions, compareRun, hs, hf]

/-! ### Merge lemmas -/

theorem mergeInsts_fst (y : Dict) (l : List (String × Val)) :
    (mergeInsts y l).1 = l.map (fun p => (p.1, (mergeEntry y p.1 p.2).1)) := by
  induction l with
  | nil => rfl
  | cons hd tl ih =>
      obtain ⟨i, v⟩ := hd
      simp [mergeInsts, ih]

theorem mergeInsts_snd (y : Dict) (l : List (String × Val)) :
    (mergeInsts y l).2 = l.any (fun p => (mergeEntry y p.1 p.2).2) := by
  induction l with
  | nil => rfl
  | cons hd tl ih =>
      obtain ⟨i, v⟩ := hd
      simp [mergeInsts, ih]

theorem mergeEntry_idem (y : Dict) (i : String) (v : Val) :
    mergeEntry y i (mergeEntry y i v).1 = mergeEntry y i v := by
  cases hd : descriptionFor y (stripQuote i) with
  | none =>
      have hE : mergeEntry y i v = (v, false) := by simp [mergeEntry, hd]
      rw [hE]
      simp [mergeEntry, hd]
  | some dv =>
      cases hv : v.getDict with
      | none =>
          have hE : mergeEntry y i v = (v, false) := by simp [mergeEntry, hd, hv]
          rw [hE]
          simp [mergeEntry, hd, hv]
      | some e =>
          have hE : mergeEntry y i v =
              (Val.dict (setKey e "description" dv), true) := by
            simp [mergeEntry, hd, hv]
          rw [hE]
          simp [mergeEntry, hd, Val.getDict, setKey_setKey]

theorem mergeInsts_idem (y : Dict) (l : List (String × Val)) :
    mergeInsts y (mergeInsts y l).1 = mergeInsts y l := by
  induction l with
  | nil => rfl
  | cons hd tl ih =>
      obtain ⟨i, v⟩ := hd
      simp [mergeInsts, mergeEntry_idem, ih]

theorem mergeSection_idem (y : Dict) (d : Doc) (fk : String) :
    mergeSection y (mergeSection y d fk).1 fk = mergeSection y d fk := by
  cases hl : asDict (lookupKey d fk) with
  | none =>
      have hE : mergeSection y d fk = (d, false) := by simp [mergeSection, hl]
      rw [hE]
      simp [mergeSection, hl]
  | some sec =>
      cases hi : asDict (lookupKey sec "instructions") with
      | none =>
          have hE : mergeSection y d fk = (d, false) := by
            simp [mergeSection, hl, hi]
          rw [hE]
          simp [mergeSection, hl, hi]
      | some insts =>
          have hE : mergeSection y d fk =
              (setKey d fk (Val.dict (setKey sec "instructions"
                (Val.dict (mergeInsts y insts).1))), (mergeInsts y insts).2) := by
            simp [mergeSection, hl, hi]
          rw [hE]
          have ha : asDict (lookupKey (setKey d fk (Val.dict (setKey sec
              "instructions" (Val.dict (mergeInsts y insts).1)))) fk) =
              some (setKey sec "instructions" (Val.dict (mergeInsts y insts).1)) := by
            rw [lookupKey_setKey_self]
            rfl
          have hb : asDict (lookupKey (setKey sec "instructions"
              (Val.dict (mergeInsts y insts).1)) "instructions") =
              some (mergeInsts y insts).1 := by
            rw [lookupKey_setKey_self]
            rfl
          simp only [mergeSection, ha, hb, mergeInsts_idem, setKey_setKey]

theorem lookupKey_mergeSection_ne (y : Dict) (d : Doc) (fk k : String)
    (hk : k ≠ fk) : lookupKey (mergeSection y d fk).1 k = lookupKey d k := by
  cases hl : asDict (lookupKey d fk) with
  | none => simp [mergeSection, hl]
  | some sec =>
      cases hi : asDict (lookupKey sec "instructions") with
      | none => simp [mergeSection, hl, hi]
      | some insts => simp [mergeSection, hl, hi, lookupKey_setKey_ne _ _ _ _ hk]

theorem asDict_eq_some {o : Option Val} {m : List (String × Val)} :
    asDict o = some m ↔ o = some (Val.dict m) := by
  cases o with
  | none => simp [asDict]
  | some v => cases v <;> simp [asDict, Val.getDict]

theorem asDict_some_dict (m : List (String × Val)) :
    asDict (some (Val.dict m)) = some m := rfl

theorem asDict_some (v : Val) : asDict (some v) = v.getDict := rfl

theorem mergeSection_stable_of_ne (y : Dict) {d : Doc} {fk : String} {m : Bool}
    (h : mergeSection y d fk = (d, m)) (fk' : String) (hne : fk' ≠ fk) :
    mergeSection y (mergeSection y d fk').1 fk =
      ((mergeSection y d fk').1, m) := by
  have hlk : lookupKey (mergeSection y d fk').1 fk = lookupKey d fk :=
    lookupKey_mergeSection_ne y d fk' fk (fun hh => hne hh.symm)
  generalize hD : (mergeSection y d fk').1 = d1 at hlk ⊢
  cases hl : asDict (lookupKey d fk) with
  | none =>
      have hms : mergeSection y d fk = (d, false) := by
        simp [mergeSection, hl]
      have hm : m = false := by
        have h2 := h.symm.trans hms
        rw [Prod.mk.injEq] at h2
        exact h2.2
      have ha1 : asDict (lookupKey d1 fk) = none := by
        rw [hlk]; exact hl
      simp [mergeSection, ha1, hm]
  | some sec =>
      have ha1 : asDict (lookupKey d1 fk) = some sec := by
        rw [hlk]; exact hl
      cases hi : asDict (lookupKey sec "instructions") with
      | none =>
          have hms : mergeSection y d fk = (d, false) := by
            simp [mergeSection, hl, hi]
          have hm : m = false := by
            have h2 := h.symm.trans hms
            rw [Prod.mk.injEq] at h2
            exact h2.2
          simp [mergeSection, ha1, hi, hm]
      | some insts =>
          have hE : mergeSection y d fk =
              (setKey d fk (Val.dict (setKey sec "instructions"
                (Val.dict (mergeInsts y insts).1))), (mergeInsts y insts).2) := by
            simp [mergeSection, hl, hi]
          have h2 := h.symm.trans hE
          rw [Prod.mk.injEq] at h2
          obtain ⟨hset, hm⟩ := h2
          have hlkd : lookupKey d fk = some (Val.dict sec) := asDict_eq_some.mp hl
          have hlks : lookupKey sec "instructions" = some (Val.dict insts) :=
            asDict_eq_some.mp hi
          have h1 := lookupKey_of_setKey_eq hset.symm
          rw [hlkd] at h1
          have h3 := Option.some.inj h1
          injection h3 with h4
          have h5 := lookupKey_of_setKey_eq h4.symm
          rw [hlks] at h5
          have h6 := Option.some.inj h5
          injection h6 with h7
          have hlk1 : lookupKey d1 fk = some (Val.dict sec) := by
            rw [hlk]; exact hlkd
          have hE1 : mergeSection y d1 fk =
              (setKey d1 fk (Val.dict (setKey sec "instructions"
                (Val.dict (mergeInsts y insts).1))), (mergeInsts y insts).2) := by
            simp [mergeSection, ha1, hi]
          rw [hE1, ← h7, setKey_of_lookupKey_eq hlks,
            setKey_of_lookupKey_eq hlk1, hm]

theorem mergeFold_flag (y : Dict) (ns : List String) (d : Doc) (b : Bool) :
    mergeFold y ns (d, b) =
      ((mergeFold y ns (d, false)).1, b || (mergeFold y ns (d, false)).2) := by
  induction ns generalizing d b with
  | nil => simp [mergeFold]
  | cons fk rest ih =>
      simp only [mergeFold]
      rw [ih _ (b || (mergeSection y d fk).2),
        ih _ (false || (mergeSection y d fk).2)]
      simp [Bool.or_assoc]

theorem mergeSection_stable_fold (y : Dict) (fk : String) (m : Bool) :
    ∀ (ns : List String) (d : Doc) (b : Bool),
      mergeSection y d fk = (d, m) →
      mergeSection y (mergeFold y ns (d, b)).1 fk =
        ((mergeFold y ns (d, b)).1, m) := by
  intro ns
  induction ns with
  | nil =>
      intro d b h
      simpa [mergeFold] using h
  | cons g rest ih =>
      intro d b h
      simp only [mergeFold]
      by_cases hg : g = fk
      · subst hg
        rw [h]
        exact ih d (b || m) h
      · exact ih _ _ (mergeSection_stable_of_ne y h g hg)

theorem mergeFold_idem (y : Dict) :
    ∀ (ns : List String) (d : Doc),
      mergeFold y ns ((mergeFold y ns (d, false)).1, false) =
        mergeFold y ns (d, false) := by
  intro ns
  induction ns with
  | nil => intro d; rfl
  | cons fk rest ih =>
      intro d
      cases hms : mergeSection y d fk with
      | mk d1 m1 =>
          have hB : mergeSection y d1 fk = (d1, m1) := by
            have hbi := mergeSection_idem y d fk
            rw [hms] at hbi
            exact hbi
          have hpass1 : mergeFold y (fk :: rest) (d, false) =
              ((mergeFold y rest (d1, false)).1,
               m1 || (mergeFold y rest (d1, false)).2) := by
            simp only [mergeFold, hms, Bool.false_or]
            exact mergeFold_flag y rest d1 m1
          have hSTAB : mergeSection y (mergeFold y rest (d1, false)).1 fk =
              ((mergeFold y rest (d1, false)).1, m1) :=
            mergeSection_stable_fold y fk m1 rest d1 false hB
          rw [hpass1]
          simp only [mergeFold, hSTAB, Bool.false_or]
          rw [mergeFold_flag y rest (mergeFold y rest (d1, false)).1 m1, ih d1]

universe u

theorem mergeFold_obs {α : Sort u} (y : Dict) (f : Doc → α)
    (hf : ∀ d fk, f (mergeSection y d fk).1 = f d) :
    ∀ (ns : List String) (d : Doc) (b : Bool),
      f (mergeFold y ns (d, b)).1 = f d := by
  intro ns
  induction ns with
  | nil => intro d b; rfl
  | cons fk rest ih =>
      intro d b
      simp only [mergeFold]
      rw [ih]
      exact hf d fk

theorem docKeys_mergeSection (y : Dict) (d : Doc) (fk : String) :
    docKeys (mergeSection y d fk).1 = docKeys d := by
  cases hl : asDict (lookupKey d fk) with
  | none => simp [mergeSection, hl]
  | some sec =>
      cases hi : asDict (lookupKey sec "instructions") with
      | none => simp [mergeSection, hl, hi]
      | some insts =>
          simp only [mergeSection, hl, hi, docKeys]
          exact keys_setKey_of_hasKey _
            (by simp [hasKey, asDict_eq_some.mp hl])

theorem sectionKeys_mergeSection (y : Dict) (d : Doc) (fk g : String) :
    sectionKeys (mergeSection y d fk).1 g = sectionKeys d g := by
  by_cases hg : g = fk
  · subst hg
    cases hl : asDict (lookupKey d g) with
    | none => simp [mergeSection, hl]
    | some sec =>
        cases hi : asDict (lookupKey sec "instructions") with
        | none => simp [mergeSection, hl, hi]
        | some insts =>
            have hE : (mergeSection y d g).1 = setKey d g (Val.dict (setKey
                sec "instructions" (Val.dict (mergeInsts y insts).1))) := by
              simp [mergeSection, hl, hi]
            unfold sectionKeys
            rw [hE, lookupKey_setKey_self, asDict_some_dict, hl]
            simp only [Option.map_some']
            rw [keys_setKey_of_hasKey _
              (by simp [hasKey, asDict_eq_some.mp hi])]
  · unfold sectionKeys
    rw [lookupKey_mergeSection_ne y d fk g hg]

theorem sectionAttr_mergeSection (y : Dict) (d : Doc) (fk g k : String)
    (hk : k ≠ "instructions") :
    sectionAttr (mergeSection y d fk).1 g k = sectionAttr d g k := by
  by_cases hg : g = fk
  · subst hg
    cases hl : asDict (lookupKey d g) with
    | none => simp [mergeSection, hl]
    | some sec =>
        cases hi : asDict (lookupKey sec "instructions") with
        | none => simp [mergeSection, hl, hi]
        | some insts =>
            simp only [mergeSection, hl, hi, sectionAttr]
            rw [lookupKey_setKey_self, asDict_some_dict]
            simp only [Option.some_bind]
            rw [lookupKey_setKey_ne _ _ _ _ hk]
  · unfold sectionAttr
    rw [lookupKey_mergeSection_ne y d fk g hg]

theorem lookupKey_mergeInsts (y : Dict) (l : List (String × Val))
    (i : String) :
    lookupKey (mergeInsts y l).1 i =
      (lookupKey l i).map (fun v => (mergeEntry y i v).1) := by
  induction l with
  | nil => rfl
  | cons hd tl ih =>
      obtain ⟨a, b⟩ := hd
      by_cases ha : a = i
      · subst ha
        simp [mergeInsts, lookupKey]
      · simp [mergeInsts, lookupKey, ha, ih]

theorem sectionInsts_mergeSection_self (y : Dict) (d : Doc) (fk : String)
    {sec insts : List (String × Val)}
    (hl : asDict (lookupKey d fk) = some sec)
    (hi : asDict (lookupKey sec "instructions") = some insts) :
    sectionInsts (mergeSection y d fk).1 fk = some (mergeInsts y insts).1 := by
  have hE : (mergeSection y d fk).1 = setKey d fk (Val.dict (setKey
      sec "instructions" (Val.dict (mergeInsts y insts).1))) := by
    simp [mergeSection, hl, hi]
  unfold sectionInsts
  rw [hE, lookupKey_setKey_self, asDict_some_dict, Option.some_bind,
    lookupKey_setKey_self, asDict_some_dict]

theorem sectionInsts_eq_some {d : Doc} {fk : String}
    {sec insts : List (String × Val)}
    (hl : asDict (lookupKey d fk) = some sec)
    (hi : asDict (lookupKey sec "instructions") = some insts) :
    sectionInsts d fk = some insts := by
  unfold sectionInsts
  rw [hl, Option.some_bind, hi]

theorem entryKeys_mergeSection (y : Dict) (d : Doc) (fk g : String) :
    entryKeys (mergeSection y d fk).1 g = entryKeys d g := by
  by_cases hg : g = fk
  · subst hg
    cases hl : asDict (lookupKey d g) with
    | none => simp [mergeSection, hl]
    | some sec =>
        cases hi : asDict (lookupKey sec "instructions") with
        | none => simp [mergeSection, hl, hi]
        | some insts =>
            unfold entryKeys
            rw [sectionInsts_mergeSection_self y d g hl hi,
              sectionInsts_eq_some hl hi]
            simp only [Option.map_some']
            rw [mergeInsts_fst]
            simp [Function.comp]
  · unfold entryKeys sectionInsts
    rw [lookupKey_mergeSection_ne y d fk g hg]

theorem mergeEntry_getDict_attr (y : Dict) (i k : String)
    (hk : k ≠ "description") (v : Val) :
    ((mergeEntry y i v).1.getDict).bind (fun e => lookupKey e k) =
      (v.getDict).bind (fun e => lookupKey e k) := by
  cases hdv : descriptionFor y (stripQuote i) with
  | none => simp [mergeEntry, hdv]
  | some dv =>
      cases hvd : v.getDict with
      | none => simp [mergeEntry, hdv, hvd]
      | some e =>
          have hE : mergeEntry y i v =
              (Val.dict (setKey e "description" dv), true) := by
            simp [mergeEntry, hdv, hvd]
          rw [hE]
          simp [Val.getDict, hvd, lookupKey_setKey_ne _ _ _ _ hk]

theorem entryAttr_mergeSection (y : Dict) (d : Doc) (fk g i k : String)
    (hk : k ≠ "description") :
    entryAttr (mergeSection y d fk).1 g i k = entryAttr d g i k := by
  by_cases hg : g = fk
  · subst hg
    cases hl : asDict (lookupKey d g) with
    | none => simp [mergeSection, hl]
    | some sec =>
        cases hi : asDict (lookupKey sec "instructions") with
        | none => simp [mergeSection, hl, hi]
        | some insts =>
            unfold entryAttr
            rw [sectionInsts_mergeSection_self y d g hl hi,
              sectionInsts_eq_some hl hi]
            simp only [Option.some_bind]
            rw [lookupKey_mergeInsts]
            cases hv : lookupKey insts i with
            | none => rfl
            | some v =>
                simp only [Option.map_some', asDict_some]
                exact mergeEntry_getDict_attr y i k hk v
  · unfold entryAttr sectionInsts
    rw [lookupKey_mergeSection_ne y d fk g hg]

theorem formatNames_mergeSection (y : Dict) (d : Doc) (fk : String) :
    formatNames (mergeSection y d fk).1 = formatNames d := by
  by_cases hf : ("formats" : String) = fk
  · subst hf
    cases hl : asDict (lookupKey d "formats") with
    | none => simp [mergeSection, hl]
    | some sec =>
        cases hi : asDict (lookupKey sec "instructions") with
        | none => simp [mergeSection, hl, hi]
        | some insts =>
            have hE : (mergeSection y d "formats").1 = setKey d "formats"
                (Val.dict (setKey sec "instructions"
                  (Val.dict (mergeInsts y insts).1))) := by
              simp [mergeSection, hl, hi]
            unfold formatNames
            rw [hE, lookupKey_setKey_self, asDict_some_dict, hl,
              Option.some_bind, Option.some_bind,
              lookupKey_setKey_ne _ _ _ _ (by decide)]
  · unfold formatNames
    rw [lookupKey_mergeSection_ne y d fk "formats" hf]

theorem formatNames_mergeDoc (y : Dict) (d : Doc) :
    formatNames (mergeDoc y d).1 = formatNames d :=
  mergeFold_obs y formatNames (formatNames_mergeSection y) (formatNames d) d
    false

theorem mergeDoc_idem (y : Dict) (d : Doc) :
    mergeDoc y (mergeDoc y d).1 = mergeDoc y d := by
  simp only [mergeDoc]
  rw [mergeFold_obs y formatNames (formatNames_mergeSection y)
    (formatNames d) d false]
  exact mergeFold_idem y (formatNames d) d

theorem docKeys_mergeDoc (y : Dict) (d : Doc) :
    docKeys (mergeDoc y d).1 = docKeys d :=
  mergeFold_obs y docKeys (docKeys_mergeSection y) (formatNames d) d false

theorem sectionKeys_mergeDoc (y : Dict) (d : Doc) (g : String) :
    sectionKeys (mergeDoc y d).1 g = sectionKeys d g :=
  mergeFold_obs y (fun dd => sectionKeys dd g)
    (fun dd fk => sectionKeys_mergeSection y dd fk g) (formatNames d) d false

theorem sectionAttr_mergeDoc (y : Dict) (d : Doc) (g k : String)
    (hk : k ≠ "instructions") :
    sectionAttr (mergeDoc y d).1 g k = sectionAttr d g k :=
  mergeFold_obs y (fun dd => sectionAttr dd g k)
    (fun dd fk => sectionAttr_mergeSection y dd fk g k hk)
    (formatNames d) d false

theorem entryKeys_mergeDoc (y : Dict) (d : Doc) (g : String) :
    entryKeys (mergeDoc y d).1 g = entryKeys d g :=
  mergeFold_obs y (fun dd => entryKeys dd g)
    (fun dd fk => entryKeys_mergeSection y dd fk g) (formatNames d) d false

theorem entryAttr_mergeDoc (y : Dict) (d : Doc) (g i k : String)
    (hk : k ≠ "description") :
    entryAttr (mergeDoc y d).1 g i k = entryAttr d g i k :=
  mergeFold_obs y (fun dd => entryAttr dd g i k)
    (fun dd fk => entryAttr_mergeSection y dd fk g i k hk)
    (formatNames d) d false

/-! ### Corpus-level classification lemmas -/

theorem partition_flatten_perm (y : Dict) (t : List (String × Doc)) :
    ((t.map (fun p => (classifyInsts y p.1 (tomlInstructions p.2)).1)).flatten
      ++ (t.map (fun p =>
        (classifyInsts y p.1 (tomlInstructions p.2)).2)).flatten).Perm
      (allInstPairs t) := by
  induction t with
  | nil => simp [allInstPairs]
  | cons hd tl ih =>
      obtain ⟨n, d⟩ := hd
      simp only [List.map_cons, List.flatten_cons, allInstPairs]
      have h1 : (((classifyInsts y n (tomlInstructions d)).1 ++
          (tl.map (fun p =>
            (classifyInsts y p.1 (tomlInstructions p.2)).1)).flatten) ++
          ((classifyInsts y n (tomlInstructions d)).2 ++
          (tl.map (fun p =>
            (classifyInsts y p.1 (tomlInstructions p.2)).2)).flatten)).Perm
          (((classifyInsts y n (tomlInstructions d)).1 ++
            (classifyInsts y n (tomlInstructions d)).2) ++
           ((tl.map (fun p =>
             (classifyInsts y p.1 (tomlInstructions p.2)).1)).flatten ++
            (tl.map (fun p =>
             (classifyInsts y p.1 (tomlInstructions p.2)).2)).flatten)) := by
        rw [List.append_assoc, List.append_assoc]
        apply List.Perm.append_left
        rw [← List.append_assoc, ← List.append_assoc]
        exact List.Perm.append_right _ List.perm_append_comm
      refine h1.trans ?h2
      exact List.Perm.append (classifyInsts_append_perm y n (tomlInstructions d))
        (by simpa [allInstPairs] using ih)

theorem matches_mem_hasKey {y : Dict} {t : List (String × Doc)}
    {p : String × String}
    (hp : p ∈ (t.map (fun q =>
      (classifyInsts y q.1 (tomlInstructions q.2)).1)).flatten) :
    hasKey y p.2 = true := by
  rw [List.mem_flatten] at hp
  obtain ⟨l, hl, hpl⟩ := hp
  rw [List.mem_map] at hl
  obtain ⟨q, _, rfl⟩ := hl
  exact (classifyInsts_fst_mem hpl).2.1

theorem mismatches_mem_hasKey {y : Dict} {t : List (String × Doc)}
    {p : String × String}
    (hp : p ∈ (t.map (fun q =>
      (classifyInsts y q.1 (tomlInstructions q.2)).2)).flatten) :
    hasKey y p.2 = false := by
  rw [List.mem_flatten] at hp
  obtain ⟨l, hl, hpl⟩ := hp
  rw [List.mem_map] at hl
  obtain ⟨q, _, rfl⟩ := hl
  exact (classifyInsts_snd_mem hpl).2.1

theorem matches_mem_all {y : Dict} {t : List (String × Doc)}
    {p : String × String}
    (hp : p ∈ (t.map (fun q =>
      (classifyInsts y q.1 (tomlInstructions q.2)).1)).flatten) :
    p.2 ∈ allTomlInstructionNames t := by
  rw [List.mem_flatten] at hp
  obtain ⟨l, hl, hpl⟩ := hp
  rw [List.mem_map] at hl
  obtain ⟨q, hq, rfl⟩ := hl
  have h3 := (classifyInsts_fst_mem hpl).2.2
  unfold allTomlInstructionNames
  rw [List.mem_flatten]
  exact ⟨(tomlInstructions q.2).map stripQuote, List.mem_map_of_mem _ hq, h3⟩

theorem contains_iff_mem (l : List String) (a : String) :
    l.contains a = true ↔ a ∈ l := List.elem_iff

/-! ### Corpus-level merge lemmas -/

theorem mergeOutput_spec (y : Dict) (t : List (String × Doc)) :
    ∀ p ∈ mergeOutput y t, mergeDoc y p.2 = (p.2, true) := by
  intro p hp
  unfold mergeOutput at hp
  rw [List.mem_map] at hp
  obtain ⟨q, hq, rfl⟩ := hp
  rw [List.mem_filter] at hq
  obtain ⟨_, hflag⟩ := hq
  rw [mergeDoc_idem y q.2]
  exact Prod.ext rfl hflag

theorem add_descriptions_snd_eq_output_length (y : Dict)
    (t : List (String × Doc)) :
    (add_descriptions_to_toml y t).2 = (mergeOutput y t).length := by
  unfold add_descriptions_to_toml mergeOutput
  rw [List.length_map]

theorem dropWhile_head_ne (l : List Char) (h : l.head? ≠ some '"') :
    l.dropWhile (fun c => c = '"') = l := by
  cases l with
  | nil => rfl
  | cons a tl =>
      have ha : a ≠ '"' := fun hq => h (by simp [hq])
      simp [List.dropWhile_cons, ha]

/-! ### Claim theorems -/

/-- C1 counterexample: for a description corpus whose record `add` is
map-shaped but has NO `description` attribute, the merge does not "copy
nothing": it writes the placeholder string `"No description available"`
into the matched entry and marks the document modified, because the source
looks the attribute up with that string as the lookup default. -/
theorem C1_counterexample :
    entryAttr (mergeDoc yamlNoDescr docEx).1 "R" "add" "description" =
      some (Val.str "No description available") ∧
    (mergeDoc yamlNoDescr docEx).2 = true := by
  exact ⟨rfl, rfl⟩

/-- C1 amended: a description record whose `description` attribute is
present but falsy contributes nothing, and so does a record that is not
map-shaped (the entry is unchanged and the document is not marked modified
on account of that entry); but a map-shaped record with NO `description`
attribute makes the merge write the placeholder string
`"No description available"` into the entry and mark the document
modified. -/
theorem C1_amended_falsy_vs_absent (y : Dict) (i : String) (v : Val)
    (rest : List (String × Val)) :
    (∀ r dv, lookupKey y (stripQuote i) = some (Val.dict r) →
      lookupKey r "description" = some dv → truthy dv = false →
      mergeInsts y ((i, v) :: rest) =
        ((i, v) :: (mergeInsts y rest).1, (mergeInsts y rest).2)) ∧
    (∀ r, lookupKey y (stripQuote i) = some r → r.isDict = false →
      mergeInsts y ((i, v) :: rest) =
        ((i, v) :: (mergeInsts y rest).1, (mergeInsts y rest).2)) ∧
    (∀ r e, lookupKey y (stripQuote i) = some (Val.dict r) →
      lookupKey r "description" = none → v = Val.dict e →
      mergeInsts y ((i, v) :: rest) =
        ((i, Val.dict (setKey e "description"
            (Val.str "No description available"))) :: (mergeInsts y rest).1,
         true)) := by
  refine ⟨?c1, ?c2, ?c3⟩
  · intro r dv hl hd ht
    have hD : descriptionFor y (stripQuote i) = none := by
      unfold descriptionFor
      rw [hl]
      simp [asDict_some_dict, hd, ht]
    simp [mergeInsts, mergeEntry, hD]
  · intro r hl hr
    have hD : descriptionFor y (stripQuote i) = none := by
      unfold descriptionFor
      rw [hl]
      cases r <;> simp_all [Val.isDict, asDict, Val.getDict]
    simp [mergeInsts, mergeEntry, hD]
  · intro r e hl hd hv
    have hD : descriptionFor y (stripQuote i) =
        some (Val.str "No description available") := by
      unfold descriptionFor
      rw [hl]
      simp only [asDict_some_dict, hd]
      rfl
    subst hv
    simp [mergeInsts, mergeEntry, hD, Val.getDict]

/-- C1 witness: the three amended cases at concrete inputs: an empty
description value copies nothing, a non-mapping record copies nothing, and
an absent attribute copies the placeholder and marks modified. -/
theorem C1_witness :
    mergeInsts yamlEmptyDescr [("add", Val.dict [])] =
      ([("add", Val.dict [])], false) ∧
    mergeInsts yamlScalar [("add", Val.dict [])] =
      ([("add", Val.dict [])], false) ∧
    mergeInsts yamlNoDescr [("add", Val.dict [])] =
      ([("add", Val.dict
          [("description", Val.str "No description available")])], true) := by
  refine ⟨?w1, ?w2, ?w3⟩
  · have h := (C1_amended_falsy_vs_absent yamlEmptyDescr "add"
      (Val.dict []) []).1 [("description", Val.str "")] (Val.str "")
      rfl rfl rfl
    simpa [mergeInsts] using h
  · have h := (C1_amended_falsy_vs_absent yamlScalar "add"
      (Val.dict []) []).2.1 (Val.str "just text") rfl rfl
    simpa [mergeInsts] using h
  · have h := (C1_amended_falsy_vs_absent yamlNoDescr "add"
      (Val.dict []) []).2.2 [] [] rfl rfl rfl
    simpa [mergeInsts, setKey] using h

/-- C2 counterexample: the doubly quoted entry name does not stop after
one layer: the source's `strip` removes every leading and trailing quote,
so the entry normalizes all the way to `add` and DOES match a description
named `add`, contrary to the claim. -/
theorem C2_counterexample :
    stripQuote "\"\"add\"\"" = "add" ∧
    classifyInsts yamlNoDescr "rv32i" ["\"\"add\"\""] =
      ([("rv32i", "add")], []) := by
  exact ⟨rfl, rfl⟩

/-- C2 amended: normalization removes ALL leading and all trailing quote
characters, each end independently (a quote need not be present on both
ends): a leading quote is always dropped, a trailing quote is always
dropped, a name with no quote at either end is unchanged, and an entry is
classified as matched exactly when the fully stripped name is a key of the
description mapping. -/
theorem C2_amended_strip_all_quotes (y : Dict) (nm s : String)
    (l : List Char) :
    stripQuote ⟨'"' :: l⟩ = stripQuote ⟨l⟩ ∧
    stripQuote ⟨l ++ ['"']⟩ = stripQuote ⟨l⟩ ∧
    (l.head? ≠ some '"' → l.getLast? ≠ some '"' → stripQuote ⟨l⟩ = ⟨l⟩) ∧
    classifyInsts y nm [s] =
      (if hasKey y (stripQuote s) then ([(nm, stripQuote s)], [])
       else ([], [(nm, stripQuote s)])) := by
  refine ⟨?e1, ?e2, ?e3, ?e4⟩
  · unfold stripQuote
    simp [List.dropWhile_cons]
  · unfold stripQuote
    rw [List.dropWhile_append]
    by_cases hq : (l.dropWhile (fun c => c = '"')).isEmpty
    · have h0 : l.dropWhile (fun c => c = '"') = [] := by
        simpa [List.isEmpty_iff] using hq
      simp [hq, h0, List.dropWhile]
    · rw [if_neg hq, List.reverse_append]
      simp [List.dropWhile_cons]
  · intro hh hl
    unfold stripQuote
    rw [dropWhile_head_ne _ hh, dropWhile_head_ne, List.reverse_reverse]
    rw [List.head?_reverse]
    exact hl
  · by_cases h : hasKey y (stripQuote s) <;> simp [classifyInsts, h]

/-- C2 witness: the amended behaviour at a concrete name: a leading quote
layer strips, an unquoted name is unchanged, and the doubly quoted name is
classified on its fully stripped form. -/
theorem C2_witness :
    stripQuote ⟨'"' :: "add".data⟩ = stripQuote ⟨"add".data⟩ ∧
    stripQuote ⟨"add".data⟩ = ⟨"add".data⟩ ∧
    classifyInsts yamlNoDescr "rv32i" ["\"\"add\"\""] =
      (if hasKey yamlNoDescr (stripQuote "\"\"add\"\"") then
        ([("rv32i", stripQuote "\"\"add\"\"")], [])
       else ([], [("rv32i", stripQuote "\"\"add\"\"")])) := by
  obtain ⟨h1, _, h3, h4⟩ :=
    C2_amended_strip_all_quotes yamlNoDescr "rv32i" "\"\"add\"\"" "add".data
  exact ⟨h1, h3 (by decide) (by decide), h4⟩

/-- C3: classification partitions the format traversal: the multiset of
(document, normalizedName) pairs in matched together with those in
formatOnly is exactly the full traversal of normalized instruction names
over listed-and-present sections of every document; every matched name is
a key of the description mapping and no formatOnly name is. -/
theorem C3_classification_partition (y : Dict) (t : List (String × Doc))
    (_hwf : corpusShapeWF t = true) :
    ((compare_yaml_and_toml_instructions y t).1 ++
      (compare_yaml_and_toml_instructions y t).2.1).Perm (allInstPairs t) ∧
    (∀ p ∈ (compare_yaml_and_toml_instructions y t).1,
      hasKey y p.2 = true) ∧
    (∀ p ∈ (compare_yaml_and_toml_instructions y t).2.1,
      hasKey y p.2 = false) := by
  simp only [compare_eq]
  exact ⟨partition_flatten_perm y t, fun p hp => matches_mem_hasKey hp,
    fun p hp => mismatches_mem_hasKey hp⟩

/-- C3 witness: the partition at the worked example. -/
theorem C3_witness :
    corpusShapeWF tomlEx = true ∧
    ((compare_yaml_and_toml_instructions yamlEx tomlEx).1 ++
      (compare_yaml_and_toml_instructions yamlEx tomlEx).2.1).Perm
      (allInstPairs tomlEx) :=
  ⟨by decide, (C3_classification_partition yamlEx tomlEx (by decide)).1⟩

/-- C4: descriptionOnly is exactly the set difference of the description
keys and the union of all normalized format instruction names, listed in
the description mapping's iteration order (a sublist of the key order);
consequently a name appearing in matched never appears in
descriptionOnly. -/
theorem C4_description_only_difference (y : Dict) (t : List (String × Doc))
    (_hwf : corpusShapeWF t = true) :
    (∀ s, s ∈ (compare_yaml_and_toml_instructions y t).2.2 ↔
      (s ∈ y.map Prod.fst ∧ s ∉ allTomlInstructionNames t)) ∧
    ((compare_yaml_and_toml_instructions y t).2.2).Sublist
      (y.map Prod.fst) ∧
    (∀ p ∈ (compare_yaml_and_toml_instructions y t).1,
      p.2 ∉ (compare_yaml_and_toml_instructions y t).2.2) := by
  simp only [compare_eq]
  refine ⟨?c1, List.filter_sublist _, ?c3⟩
  · intro s
    constructor
    · intro hs
      rw [List.mem_filter] at hs
      obtain ⟨h1, h2⟩ := hs
      refine ⟨h1, fun hmem => ?_⟩
      rw [← contains_iff_mem] at hmem
      rw [hmem] at h2
      simp at h2
    · rintro ⟨h1, h2⟩
      rw [List.mem_filter]
      refine ⟨h1, ?_⟩
      have hc : (allTomlInstructionNames t).contains s = false := by
        cases hcc : (allTomlInstructionNames t).contains s
        · rfl
        · exact absurd ((contains_iff_mem _ _).mp hcc) h2
      rw [hc]
      rfl
  · intro p hp hmem
    rw [List.mem_filter] at hmem
    obtain ⟨_, h2⟩ := hmem
    rw [(contains_iff_mem _ _).mpr (matches_mem_all hp)] at h2
    simp at h2

/-- C4 witness: at the worked example, `sub` is in descriptionOnly exactly
because it is a description key absent from every format document. -/
theorem C4_witness :
    "sub" ∈ (compare_yaml_and_toml_instructions yamlEx tomlEx).2.2 ↔
      ("sub" ∈ yamlEx.map Prod.fst ∧
       "sub" ∉ allTomlInstructionNames tomlEx) :=
  (C4_description_only_difference yamlEx tomlEx (by decide)).1 "sub"

/-- C5: merge is value-idempotent but not count-idempotent: running the
merge again on its own written output with the same description corpus
changes no document (every description is overwritten with the identical
value), while the second run's modified count still counts every document
of that output corpus; the first run's count equals the size of the
written output. -/
theorem C5_merge_value_idempotent (y : Dict) (t : List (String × Doc))
    (_hwf : corpusMergeWF t = true) :
    (add_descriptions_to_toml y (mergeOutput y t)).1 = mergeOutput y t ∧
    (add_descriptions_to_toml y (mergeOutput y t)).2 =
      (mergeOutput y t).length ∧
    (add_descriptions_to_toml y t).2 = (mergeOutput y t).length := by
  have hspec := mergeOutput_spec y t
  refine ⟨?v, ?c, add_descriptions_snd_eq_output_length y t⟩
  · show (mergeOutput y t).map
      (fun p => (p.1, (mergeDoc y p.2).1)) = mergeOutput y t
    have hcg : ∀ p ∈ mergeOutput y t,
        (p.1, (mergeDoc y p.2).1) = id p := by
      intro p hp
      rw [hspec p hp]
      rfl
    rw [List.map_congr_left hcg, List.map_id]
  · show ((mergeOutput y t).filter
      (fun p => (mergeDoc y p.2).2)).length = (mergeOutput y t).length
    rw [List.filter_eq_self.mpr
      (fun p hp => by rw [hspec p hp])]

/-- C5 witness: at the worked example the second merge run returns the
output unchanged and counts its single document again. -/
theorem C5_witness :
    corpusMergeWF tomlEx = true ∧
    (add_descriptions_to_toml yamlEx (mergeOutput yamlEx tomlEx)).1 =
      mergeOutput yamlEx tomlEx ∧
    (add_descriptions_to_toml yamlEx (mergeOutput yamlEx tomlEx)).2 =
      (mergeOutput yamlEx tomlEx).length :=
  ⟨by decide, (C5_merge_value_idempotent yamlEx tomlEx (by decide)).1,
   (C5_merge_value_idempotent yamlEx tomlEx (by decide)).2.1⟩

/-- C6: the comparison returns its three collections without mutating
either input mapping: the threaded program state after the call is the
state before it. -/
theorem C6_compare_no_mutation (s : ProgState) :
    (compareRun s).2 = s ∧
    (compareRun s).2.yaml_files = s.yaml_files ∧
    (compareRun s).2.toml_files = s.toml_files := by
  have h : (compareRun s).2 = s := compareLoop_state s s.toml_files
  exact ⟨h, by rw [h], by rw [h]⟩

/-- C7: a format entry whose normalized name is not a key of the
description mapping is left completely untouched by the merge: the entry
is unchanged at its original position, and the entry write never fires for
it. -/
theorem C7_unmatched_entry_untouched (y : Dict)
    (insts : List (String × Val)) (n : Nat) (i : String) (v : Val)
    (hn : insts[n]? = some (i, v))
    (hk : hasKey y (stripQuote i) = false) :
    (mergeInsts y insts).1[n]? = some (i, v) ∧
    mergeEntry y i v = (v, false) := by
  have hD : descriptionFor y (stripQuote i) = none := by
    unfold descriptionFor
    rw [hasKey_false_iff.mp hk]
    rfl
  have hE : mergeEntry y i v = (v, false) := by
    simp [mergeEntry, hD]
  refine ⟨?pos, hE⟩
  rw [mergeInsts_fst, List.getElem?_map, hn, Option.map_some', hE]

/-- C7 witness: the unmatched `mul` entry of the worked example is
untouched. -/
theorem C7_witness :
    ([("mul", Val.dict [])] : List (String × Val))[0]? =
      some ("mul", Val.dict []) ∧
    hasKey yamlEx (stripQuote "mul") = false ∧
    (mergeInsts yamlEx [("mul", Val.dict [])]).1[0]? =
      some ("mul", Val.dict []) := by
  refine ⟨rfl, rfl, ?_⟩
  exact (C7_unmatched_entry_untouched yamlEx [("mul", Val.dict [])] 0
    "mul" (Val.dict []) rfl rfl).1

/-- C8: a section name listed in formats.names but absent as a top-level
key of the document is skipped by both classification and merge: it
contributes no instruction names, no classified pairs, no merge, and the
document is returned unchanged and unmodified. -/
theorem C8_listed_missing_section_skipped (y : Dict) (d : Doc)
    (fk nm : String) (h : hasKey d fk = false) :
    sectionInstNames d fk = [] ∧
    classifyInsts y nm (sectionInstNames d fk) = ([], []) ∧
    mergeSection y d fk = (d, false) := by
  have hl : lookupKey d fk = none := hasKey_false_iff.mp h
  have h1 : sectionInstNames d fk = [] := by
    unfold sectionInstNames
    rw [hl]
    rfl
  refine ⟨h1, by rw [h1]; rfl, ?_⟩
  unfold mergeSection
  rw [hl]
  rfl

/-- C8 witness: a document listing section `R` without carrying it. -/
theorem C8_witness :
    hasKey docMissingSection "R" = false ∧
    sectionInstNames docMissingSection "R" = [] ∧
    mergeSection yamlEx docMissingSection "R" = (docMissingSection, false) := by
  have h := C8_listed_missing_section_skipped yamlEx docMissingSection
    "R" "rv32i" rfl
  exact ⟨rfl, h.1, h.2.2⟩

/-- C9: a missing `formats` key, a `formats` mapping without `names`, or a
listed-and-present section without an `instructions` key is treated as
empty by both classification and merge: no instruction names, no merge, no
error. -/
theorem C9_missing_keys_empty (y : Dict) (d : Doc) (fk : String)
    (fm sec : List (String × Val)) :
    (lookupKey d "formats" = none →
      formatNames d = [] ∧ tomlInstructions d = [] ∧
      mergeDoc y d = (d, false)) ∧
    (lookupKey d "formats" = some (Val.dict fm) →
      lookupKey fm "names" = none →
      formatNames d = [] ∧ tomlInstructions d = [] ∧
      mergeDoc y d = (d, false)) ∧
    (lookupKey d fk = some (Val.dict sec) →
      lookupKey sec "instructions" = none →
      sectionInstNames d fk = [] ∧ mergeSection y d fk = (d, false)) := by
  refine ⟨?c1, ?c2, ?c3⟩
  · intro h
    have h1 : formatNames d = [] := by
      unfold formatNames
      rw [h]
      rfl
    exact ⟨h1, by unfold tomlInstructions; rw [h1]; rfl,
      by unfold mergeDoc; rw [h1]; rfl⟩
  · intro h hn
    have h1 : formatNames d = [] := by
      unfold formatNames
      rw [h, asDict_some_dict, Option.some_bind, hn]
      rfl
    exact ⟨h1, by unfold tomlInstructions; rw [h1]; rfl,
      by unfold mergeDoc; rw [h1]; rfl⟩
  · intro h hi
    constructor
    · simp [sectionInstNames, h, asDict, Val.getDict, hi]
    · simp [mergeSection, h, asDict, Val.getDict, hi]

/-- C9 witness: the three missing-key shapes at concrete documents. -/
theorem C9_witness :
    (formatNames docNoFormats = [] ∧
      mergeDoc yamlEx docNoFormats = (docNoFormats, false)) ∧
    formatNames docNoNames = [] ∧
    (sectionInstNames docNoInsts "R" = [] ∧
      mergeSection yamlEx docNoInsts "R" = (docNoInsts, false)) := by
  have h1 := (C9_missing_keys_empty yamlEx docNoFormats "R" [] []).1 rfl
  have h2 := (C9_missing_keys_empty yamlEx docNoNames "R" [] []).2.1 rfl rfl
  have h3 := (C9_missing_keys_empty yamlEx docNoInsts "R" []
    [("mask", Val.str "0x7f")]).2.2 rfl rfl
  exact ⟨⟨h1.1, h1.2.2⟩, h2.1, h3⟩

/-- C10: merge never adds, removes or renames documents, sections or
instruction entries: the document names, each merged document's top-level
keys, each section's keys, and each instructions mapping's entry keys
(quotes included) are identical before and after, and inside an entry
every attribute other than `description` is unchanged. -/
theorem C10_merge_frame (y : Dict) (t : List (String × Doc)) (d : Doc)
    (_hwf : corpusMergeWF t = true) (_hd : docMergeWF d = true) :
    ((add_descriptions_to_toml y t).1.map Prod.fst = t.map Prod.fst) ∧
    docKeys (mergeDoc y d).1 = docKeys d ∧
    (∀ g, sectionKeys (mergeDoc y d).1 g = sectionKeys d g) ∧
    (∀ g k, k ≠ "instructions" →
      sectionAttr (mergeDoc y d).1 g k = sectionAttr d g k) ∧
    (∀ g, entryKeys (mergeDoc y d).1 g = entryKeys d g) ∧
    (∀ g i k, k ≠ "description" →
      entryAttr (mergeDoc y d).1 g i k = entryAttr d g i k) := by
  refine ⟨?names, docKeys_mergeDoc y d, fun g => sectionKeys_mergeDoc y d g,
    fun g k hk => sectionAttr_mergeDoc y d g k hk,
    fun g => entryKeys_mergeDoc y d g,
    fun g i k hk => entryAttr_mergeDoc y d g i k hk⟩
  show (t.map (fun p => (p.1, (mergeDoc y p.2).1))).map Prod.fst =
    t.map Prod.fst
  rw [List.map_map]
  rfl

/-- C10 witness: the frame conditions at the worked example, including an
untouched non-description attribute slot. -/
theorem C10_witness :
    corpusMergeWF tomlEx = true ∧ docMergeWF docEx = true ∧
    docKeys (mergeDoc yamlEx docEx).1 = docKeys docEx ∧
    entryKeys (mergeDoc yamlEx docEx).1 "R" = entryKeys docEx "R" ∧
    entryAttr (mergeDoc yamlEx docEx).1 "R" "add" "kind" =
      entryAttr docEx "R" "add" "kind" := by
  have h := C10_merge_frame yamlEx tomlEx docEx (by decide) (by decide)
  exact ⟨by decide, by decide, h.2.1, h.2.2.2.2.1 "R",
    h.2.2.2.2.2 "R" "add" "kind" (by decide)⟩

end TomlGen
